import Mathlib

/-!
# Verification of the Asyafira airdrop Merkle/relayer core

Shallow embedding of the repository's claim-verification pipeline:

* the proof server's `encodeLeaf` (hex-string manipulation plus Node
  `Buffer.from(_, 'hex')` semantics, including its silent truncation of a
  trailing lone hex digit);
* the Merkle tree the server and deploy script build with
  `new MerkleTree(leaves, keccak256, { sortPairs: true })` — the library's
  semantics (sorted-pair hashing, odd node carried up to the next level,
  failure on zero leaves) is modelled from the specification since the
  library source is not part of this repository;
* the `Airdrop` Solidity contract's `claim` / `setMerkleRoot` entry points
  (with OpenZeppelin `MerkleProof.verify` modelled as the spec's
  sort-then-hash fold);
* the relayer's `POST /relay-claim` handler as a sequential step function
  over its mutable state (`usedNonces`, `pendingTxs`), with the external
  collaborators (clock, signature recovery, `contract.claimed`, proof
  server, transaction submission) supplied as an oracle environment, and
  the asynchronous `tx.wait` continuations as separate state transitions.

Hashes are kept abstract: every definition is parametrised by an arbitrary
hash function `H : List Nat → List Nat` standing for keccak256, so each
theorem below holds for keccak256 in particular.
-/

/-- A byte string (each entry intended `< 256`); digests and buffers alike. -/
abbrev Bytes := List Nat

/-! ## Hex strings and `encodeLeaf` (proof server, part_001)

A hex string is modelled as the list of its digit values (`0..15`); the
server lowercases addresses before use, so letter case is already erased.
-/

/-- Digit-by-digit `BigInt(n).toString(16)`: emit `n % 16` and recurse on
`n / 16`. The fuel argument only bounds the recursion depth (the digit
count never exceeds the number itself), keeping the definition structural
so that it evaluates inside `decide`. -/
def natToHexAux : Nat → Nat → List Nat
  | 0, n => [n % 16]
  | fuel + 1, n => if n < 16 then [n] else natToHexAux fuel (n / 16) ++ [n % 16]

/-- The rendering `BigInt(n).toString(16)`: hex digits of `n`, most significant first
(`0` renders as `[0]`). -/
def natToHex (n : Nat) : List Nat := natToHexAux n n

/-- JavaScript `String.prototype.padStart(w, '0')` on a digit list. -/
def padStart (w : Nat) (s : List Nat) : List Nat :=
  List.replicate (w - s.length) 0 ++ s

/-- Node `Buffer.from(hexString, 'hex')`: decode complete digit pairs,
silently dropping a trailing lone digit. -/
def bufferFromHex : List Nat → Bytes
  | hi :: lo :: rest => (hi * 16 + lo) :: bufferFromHex rest
  | _ => []

/-- The proof server's `encodeLeaf(addr, amount)`: the address hex string
(`0x` already stripped) is left-padded to 40 digits and hex-decoded, the
amount is rendered in hex, left-padded to 64 digits and hex-decoded, and
the two buffers are concatenated. -/
def encodeLeaf (addrHex : List Nat) (amount : Nat) : Bytes :=
  bufferFromHex (padStart 40 addrHex) ++ bufferFromHex (padStart 64 (natToHex amount))

/-- The packing `abi.encodePacked(address, uint256)` as the contract hashes it: the
20 address bytes followed by the 32-byte big-endian amount. -/
def beBytes (w n : Nat) : Bytes :=
  match w with
  | 0 => []
  | w + 1 => beBytes w (n / 256) ++ [n % 256]

def encodePacked (addrBytes : Bytes) (amount : Nat) : Bytes :=
  addrBytes ++ beBytes 32 amount

/-! ## The Merkle tree (`merkletreejs` with `sortPairs: true`)

Modelled from the spec: the tree-construction library is not part of this
repository's sources, so its behaviour is taken from the specification —
at each level adjacent nodes are paired, each pair is sorted
byte-lexicographically before being concatenated and hashed, an unpaired
last node is carried up unmodified, and building over zero leaves fails
with `EmptyTree`.
-/

/-- Node `Buffer.compare` on byte strings: lexicographic, a strict prefix sorts
first. -/
def bufCompare : Bytes → Bytes → Ordering
  | [], [] => .eq
  | [], _ :: _ => .lt
  | _ :: _, [] => .gt
  | a :: as, b :: bs =>
    if a < b then .lt else if b < a then .gt else bufCompare as bs

/-- Sorted-pair hashing (`sortPairs: true`): the two child digests are
sorted before concatenation and hashing. -/
def combinePair (H : Bytes → Bytes) (a b : Bytes) : Bytes :=
  match bufCompare a b with
  | .gt => H (b ++ a)
  | _ => H (a ++ b)

/-- One level of the bottom-up build: hash adjacent sorted pairs; an
unpaired last node is carried up unmodified. -/
def hashLevel (H : Bytes → Bytes) : List Bytes → List Bytes
  | a :: b :: rest => combinePair H a b :: hashLevel H rest
  | level => level

theorem hashLevel_length (H : Bytes → Bytes) :
    ∀ level : List Bytes, (hashLevel H level).length = (level.length + 1) / 2
  | [] => by simp [hashLevel]
  | [_] => by simp [hashLevel]
  | _ :: _ :: rest => by
    simp only [hashLevel, List.length_cons, hashLevel_length H rest]
    omega

/-- Fold levels until a single node remains; its digest is the root.
(The `[]` arm is unreachable through `buildRoot`.) -/
def rootFromLevel (H : Bytes → Bytes) : List Bytes → Bytes
  | [] => []
  | [x] => x
  | a :: b :: rest => rootFromLevel H (hashLevel H (a :: b :: rest))
  termination_by level => level.length
  decreasing_by simp [hashLevel_length]; omega

inductive BuildError where
  | EmptyTree
  deriving DecidableEq, Repr

/-- Modelled from the spec: `build` fails with `EmptyTree` on zero leaves,
otherwise returns the fold of the levels. -/
def buildRoot (H : Bytes → Bytes) (leaves : List Bytes) : Except BuildError Bytes :=
  match leaves with
  | [] => .error .EmptyTree
  | _ => .ok (rootFromLevel H leaves)

/-- The inclusion-proof sibling of index `i` in one level: the right
neighbour of an even index, the left neighbour of an odd one; `none` when
the node is the unpaired last node of the level. -/
def sibling (level : List Bytes) (i : Nat) : Option Bytes :=
  if i % 2 = 0 then level.get? (i + 1) else level.get? (i - 1)

/-- The inclusion proof for the leaf at index `i`: its sibling at each
level, bottom up (no entry at a level where it is the carried-up odd
node). -/
def getProof (H : Bytes → Bytes) (level : List Bytes) (i : Nat) : List Bytes :=
  if h : level.length ≤ 1 then []
  else
    let rest := getProof H (hashLevel H level) (i / 2)
    match sibling level i with
    | some s => s :: rest
    | none => rest
  termination_by level.length
  decreasing_by simp [hashLevel_length]; omega

/-- OpenZeppelin `MerkleProof.processProof`: fold the proof from the leaf,
sorting each `{accumulator, sibling}` pair before hashing. -/
def processProof (H : Bytes → Bytes) (leaf : Bytes) (proof : List Bytes) : Bytes :=
  proof.foldl (fun acc s => combinePair H acc s) leaf

/-- OpenZeppelin `MerkleProof.verify`: the fold of the proof from the leaf
must reproduce the root. -/
def merkleVerify (H : Bytes → Bytes) (proof : List Bytes) (root leaf : Bytes) : Bool :=
  processProof H leaf proof == root

/-! ### Commutativity of sorted-pair hashing -/

theorem bufCompare_eq_iff : ∀ a b : Bytes, bufCompare a b = .eq ↔ a = b
  | [], [] => by simp [bufCompare]
  | [], _ :: _ => by simp [bufCompare]
  | _ :: _, [] => by simp [bufCompare]
  | a :: as, b :: bs => by
    simp only [bufCompare]
    rcases Nat.lt_trichotomy a b with h | h | h
    · simp [h, Nat.ne_of_lt h]
    · subst h
      simp [Nat.lt_irrefl, bufCompare_eq_iff as bs]
    · rw [if_neg (by omega), if_pos h]
      simp
      omega

theorem bufCompare_swap : ∀ a b : Bytes, bufCompare b a = (bufCompare a b).swap
  | [], [] => by simp [bufCompare, Ordering.swap]
  | [], _ :: _ => by simp [bufCompare, Ordering.swap]
  | _ :: _, [] => by simp [bufCompare, Ordering.swap]
  | a :: as, b :: bs => by
    simp only [bufCompare]
    rcases Nat.lt_trichotomy a b with h | h | h
    · rw [if_pos h, if_neg (by omega), if_pos h, Ordering.swap]
    · subst h
      simp [Nat.lt_irrefl, bufCompare_swap as bs]
    · rw [if_pos h, if_neg (by omega), if_pos h, Ordering.swap]

/-- Sorted-pair hashing is symmetric in its two children. -/
theorem combinePair_comm (H : Bytes → Bytes) (a b : Bytes) :
    combinePair H a b = combinePair H b a := by
  unfold combinePair
  rw [bufCompare_swap a b]
  rcases h : bufCompare a b with _ | _ | _
  · rfl
  · have hab : a = b := (bufCompare_eq_iff a b).mp h
    subst hab
    rfl
  · rfl

/-! ### The level fold against the proof path -/

theorem sibling_cons2 (a b : Bytes) (rest : List Bytes) (i : Nat) :
    sibling (a :: b :: rest) (i + 2) = sibling rest i := by
  unfold sibling
  have h3 : (i + 2) % 2 = i % 2 := by omega
  rw [h3]
  by_cases hp : i % 2 = 0
  · rw [if_pos hp, if_pos hp]
    rfl
  · rw [if_neg hp, if_neg hp]
    have h4 : i + 2 - 1 = i - 1 + 2 := by omega
    rw [h4]
    rfl

theorem getD_cons2 (a b d : Bytes) (rest : List Bytes) (i : Nat) :
    (a :: b :: rest).getD (i + 2) d = rest.getD i d := rfl

/-- The node the proof path moves to at the next level: the sorted-pair
hash with the sibling when one exists, the node itself when it is the
carried-up odd node. -/
theorem hashLevel_get (H : Bytes → Bytes) :
    ∀ (l : List Bytes) (i : Nat), i < l.length →
      (hashLevel H l).get? (i / 2) =
        some (match sibling l i with
              | some s => combinePair H (l.getD i []) s
              | none => l.getD i [])
  | [], i, h => by simp at h
  | [x], 0, _ => by simp [hashLevel, sibling]
  | [_], i + 1, h => by simp at h
  | a :: b :: rest, 0, _ => by simp [hashLevel, sibling]
  | a :: b :: rest, 1, _ => by
    simp [hashLevel, sibling, combinePair_comm H b a]
  | a :: b :: rest, i + 2, h => by
    have hlen : i < rest.length := by
      simp only [List.length_cons] at h
      omega
    have ih := hashLevel_get H rest i hlen
    have h2 : (i + 2) / 2 = i / 2 + 1 := by omega
    show (combinePair H a b :: hashLevel H rest).get? ((i + 2) / 2) = _
    rw [h2, List.get?_cons_succ, sibling_cons2, getD_cons2]
    exact ih

theorem rootFromLevel_step (H : Bytes → Bytes) :
    ∀ l : List Bytes, 2 ≤ l.length → rootFromLevel H l = rootFromLevel H (hashLevel H l)
  | _ :: _ :: _, _ => by rw [rootFromLevel]
  | [], h => by simp at h
  | [_], h => by simp at h

/-- Round trip of the proof path: folding the generated inclusion proof
from the leaf at any index reproduces the root of the level. -/
theorem processProof_getProof (H : Bytes → Bytes) (l : List Bytes) (i : Nat)
    (h : i < l.length) :
    processProof H (l.getD i []) (getProof H l i) = rootFromLevel H l := by
  by_cases h1 : l.length ≤ 1
  · match l, i, h, h1 with
    | [x], 0, _, _ => simp [getProof, processProof, rootFromLevel]
  · have hnext : i / 2 < (hashLevel H l).length := by
      rw [hashLevel_length]
      omega
    have ih := processProof_getProof H (hashLevel H l) (i / 2) hnext
    have hpair := hashLevel_get H l i h
    have hgetD : (hashLevel H l).getD (i / 2) [] =
        (match sibling l i with
         | some s => combinePair H (l.getD i []) s
         | none => l.getD i []) := by
      rw [List.getD_eq_get?, hpair]
      rfl
    rw [getProof, dif_neg h1]
    rcases hs : sibling l i with _ | s
    · simp only [hs] at hgetD ⊢
      rw [← hgetD, ih, ← rootFromLevel_step H l (by omega)]
    · simp only [hs] at hgetD ⊢
      show processProof H (combinePair H (l.getD i []) s)
        (getProof H (hashLevel H l) (i / 2)) = rootFromLevel H l
      rw [← hgetD, ih, ← rootFromLevel_step H l (by omega)]
  termination_by l.length
  decreasing_by rw [hashLevel_length]; omega

/-! ## The eligibility list (proof server, part_001) -/

/-- One whitelist entry `{ address, amount }`, the address as its
lowercased hex digit string (`0x` stripped), the amount as the unsigned
integer the server passes through `BigInt`. -/
structure Entry where
  address : List Nat
  amount : Nat
  deriving DecidableEq, Repr

/-- The leaves `whitelist.map(e => keccak256(encodeLeaf(e.address.toLowerCase(), e.amount)))`. -/
def leavesOf (H : Bytes → Bytes) (wl : List Entry) : List Bytes :=
  wl.map (fun e => H (encodeLeaf e.address e.amount))

/-- The root the server publishes (`tree.getHexRoot()`). -/
def rootOf (H : Bytes → Bytes) (wl : List Entry) : Bytes :=
  rootFromLevel H (leavesOf H wl)

/-- The index at which `merkletreejs` locates a leaf digest: the first
position holding that byte string. -/
def leafIndex : List Bytes → Bytes → Nat
  | [], _ => 0
  | x :: xs, leaf => if x = leaf then 0 else leafIndex xs leaf + 1

/-- The route `GET /proof/:address/:amount`: look the pair up in the whitelist
(404 when absent), recompute the leaf and return the tree's proof for it
(`tree.getHexProof` locates the leaf by value, i.e. at its first index). -/
def proveLeaf (H : Bytes → Bytes) (wl : List Entry) (addr : List Nat) (amount : Nat) :
    Option (List Bytes) :=
  match wl.find? (fun e => e.address == addr && e.amount == amount) with
  | none => none
  | some _ =>
    some (getProof H (leavesOf H wl)
      (leafIndex (leavesOf H wl) (H (encodeLeaf addr amount))))

theorem leafIndex_lt_length : ∀ {leaves : List Bytes} {leaf : Bytes}, leaf ∈ leaves →
    leafIndex leaves leaf < leaves.length := by
  intro leaves
  induction leaves with
  | nil => intro leaf h; simp at h
  | cons x xs ih =>
    intro leaf h
    by_cases hx : x = leaf
    · simp [leafIndex, hx]
    · have hmem : leaf ∈ xs := by
        rcases List.mem_cons.mp h with h1 | h1
        · exact absurd h1.symm hx
        · exact h1
      simp only [leafIndex, if_neg hx, List.length_cons]
      exact Nat.succ_lt_succ (ih hmem)

theorem getD_leafIndex : ∀ {leaves : List Bytes} {leaf : Bytes}, leaf ∈ leaves →
    leaves.getD (leafIndex leaves leaf) [] = leaf := by
  intro leaves
  induction leaves with
  | nil => intro leaf h; simp at h
  | cons x xs ih =>
    intro leaf h
    by_cases hx : x = leaf
    · simp [leafIndex, hx]
    · have hmem : leaf ∈ xs := by
        rcases List.mem_cons.mp h with h1 | h1
        · exact absurd h1.symm hx
        · exact h1
      simp only [leafIndex, if_neg hx]
      exact ih hmem

/-- Shared round-trip helper: for an entry present in the whitelist, the
server's proof endpoint succeeds and its proof verifies against the
published root. -/
theorem proveLeaf_round_trip (H : Bytes → Bytes) (wl : List Entry) (addr : List Nat)
    (amount : Nat) (hmem : Entry.mk addr amount ∈ wl) :
    (proveLeaf H wl addr amount).isSome = true ∧
    merkleVerify H ((proveLeaf H wl addr amount).getD [])
      (rootOf H wl) (H (encodeLeaf addr amount)) = true := by
  have hleafmem : H (encodeLeaf addr amount) ∈ leavesOf H wl :=
    List.mem_map.mpr ⟨Entry.mk addr amount, hmem, rfl⟩
  have hlt : leafIndex (leavesOf H wl) (H (encodeLeaf addr amount)) <
      (leavesOf H wl).length := leafIndex_lt_length hleafmem
  have hroot := processProof_getProof H (leavesOf H wl)
    (leafIndex (leavesOf H wl) (H (encodeLeaf addr amount))) hlt
  rw [getD_leafIndex hleafmem] at hroot
  cases hf : wl.find? (fun e => e.address == addr && e.amount == amount) with
  | none =>
    exfalso
    have hnone := List.find?_eq_none.mp hf (Entry.mk addr amount) hmem
    simp at hnone
  | some e =>
    unfold proveLeaf
    rw [hf]
    refine ⟨rfl, ?_⟩
    unfold merkleVerify
    simp only [Option.getD_some]
    rw [hroot]
    exact beq_self_eq_true _

/-! ## Claim theorems over the tree -/

/-- A concrete stand-in hash used only to instantiate the `∀ H` theorems
in witnesses. -/
def hashLen : Bytes → Bytes := fun b => [b.length % 256]

/-- C1: for every eligibility list and every entry in it, the proof the
server generates for that entry, verified by the sort-then-hash fold from
the recomputed leaf, reproduces the list's root. -/
theorem prove_then_verify_succeeds (H : Bytes → Bytes) (wl : List Entry)
    (addr : List Nat) (amount : Nat) (hmem : Entry.mk addr amount ∈ wl) :
    (proveLeaf H wl addr amount).isSome = true ∧
    merkleVerify H ((proveLeaf H wl addr amount).getD [])
      (rootOf H wl) (H (encodeLeaf addr amount)) = true :=
  proveLeaf_round_trip H wl addr amount hmem

def wlW : List Entry := [⟨[1], 100⟩, ⟨[2], 50⟩, ⟨[3], 200⟩]

theorem prove_then_verify_succeeds_witness :
    (proveLeaf hashLen wlW [2] 50).isSome = true ∧
    merkleVerify hashLen ((proveLeaf hashLen wlW [2] 50).getD [])
      (rootOf hashLen wlW) (hashLen (encodeLeaf [2] 50)) = true :=
  prove_then_verify_succeeds hashLen wlW [2] 50 (by decide)

/-- C6: for a one-entry list the root is that entry's leaf digest, the
generated proof is empty, and verifying with the empty proof succeeds. -/
theorem single_leaf_tree (H : Bytes → Bytes) (addr : List Nat) :
    buildRoot H (leavesOf H [Entry.mk addr 100]) = .ok (H (encodeLeaf addr 100)) ∧
    proveLeaf H [Entry.mk addr 100] addr 100 = some [] ∧
    merkleVerify H [] (rootOf H [Entry.mk addr 100]) (H (encodeLeaf addr 100)) = true := by
  have hleaves : leavesOf H [Entry.mk addr 100] = [H (encodeLeaf addr 100)] := rfl
  have hroot : rootOf H [Entry.mk addr 100] = H (encodeLeaf addr 100) := by
    unfold rootOf
    rw [hleaves, rootFromLevel]
  refine ⟨?_, ?_, ?_⟩
  · rw [hleaves]
    unfold buildRoot
    rw [rootFromLevel]
  · unfold proveLeaf
    have hfind : ([Entry.mk addr 100].find?
        (fun e => e.address == addr && e.amount == 100)) = some (Entry.mk addr 100) := by
      simp [List.find?]
    rw [hfind, hleaves]
    have : getProof H [H (encodeLeaf addr 100)]
        (leafIndex [H (encodeLeaf addr 100)] (H (encodeLeaf addr 100))) = [] := by
      rw [getProof]
      simp
    rw [this]
  · unfold merkleVerify processProof
    rw [hroot]
    simp

/-- C7: at any odd-width level the unpaired last node is carried up
unmodified (same digest, not re-hashed), and — build and proof generation
applying this rule consistently — each of the three entries of the
three-leaf scenario list `[{A,100},{B,50},{C,200}]` verifies against the
three-leaf root with its own generated proof. -/
theorem odd_carry_and_three_leaf (H : Bytes → Bytes) (l : List Bytes)
    (hodd : l.length % 2 = 1) (A B C : List Nat) :
    (hashLevel H l).get? (l.length / 2) = l.get? (l.length - 1) ∧
    ((proveLeaf H [Entry.mk A 100, Entry.mk B 50, Entry.mk C 200] A 100).isSome = true ∧
      merkleVerify H
        ((proveLeaf H [Entry.mk A 100, Entry.mk B 50, Entry.mk C 200] A 100).getD [])
        (rootOf H [Entry.mk A 100, Entry.mk B 50, Entry.mk C 200])
        (H (encodeLeaf A 100)) = true) ∧
    ((proveLeaf H [Entry.mk A 100, Entry.mk B 50, Entry.mk C 200] B 50).isSome = true ∧
      merkleVerify H
        ((proveLeaf H [Entry.mk A 100, Entry.mk B 50, Entry.mk C 200] B 50).getD [])
        (rootOf H [Entry.mk A 100, Entry.mk B 50, Entry.mk C 200])
        (H (encodeLeaf B 50)) = true) ∧
    ((proveLeaf H [Entry.mk A 100, Entry.mk B 50, Entry.mk C 200] C 200).isSome = true ∧
      merkleVerify H
        ((proveLeaf H [Entry.mk A 100, Entry.mk B 50, Entry.mk C 200] C 200).getD [])
        (rootOf H [Entry.mk A 100, Entry.mk B 50, Entry.mk C 200])
        (H (encodeLeaf C 200)) = true) := by
  refine ⟨?_,
    proveLeaf_round_trip H _ A 100 (by simp),
    proveLeaf_round_trip H _ B 50 (by simp),
    proveLeaf_round_trip H _ C 200 (by simp)⟩
  have hpos : 0 < l.length := by omega
  have hget := hashLevel_get H l (l.length - 1) (by omega)
  have hsib : sibling l (l.length - 1) = none := by
    unfold sibling
    rw [if_pos (by omega)]
    rw [List.get?_eq_none]
    omega
  rw [hsib] at hget
  have hdiv : (l.length - 1) / 2 = l.length / 2 := by omega
  rw [hdiv] at hget
  rw [hget, List.getD_eq_get?]
  cases hg : l.get? (l.length - 1) with
  | none =>
    rw [List.get?_eq_none] at hg
    omega
  | some x => rfl

theorem odd_carry_and_three_leaf_witness :
    (hashLevel hashLen [[0], [1], [2]]).get? (([[0], [1], [2]] : List Bytes).length / 2) =
      ([[0], [1], [2]] : List Bytes).get? (([[0], [1], [2]] : List Bytes).length - 1) ∧
    (proveLeaf hashLen [Entry.mk [1] 100, Entry.mk [2] 50, Entry.mk [3] 200] [1] 100).isSome
      = true :=
  ⟨(odd_carry_and_three_leaf hashLen [[0], [1], [2]] (by decide) [1] [2] [3]).1,
   (odd_carry_and_three_leaf hashLen [[0], [1], [2]] (by decide) [1] [2] [3]).2.1.1⟩

/-- C8 (modelled from the spec, the tree library being outside the
repository sources): building the tree over zero leaves fails with
`EmptyTree`. -/
theorem build_empty_tree (H : Bytes → Bytes) : buildRoot H [] = .error .EmptyTree := rfl

/-- The default whitelist's first address,
`0x70997970C51812dc3A010C7d01b50e0d17dc79C8`, as lowercased hex digits. -/
def addr1hex : List Nat :=
  [7, 0, 9, 9, 7, 9, 7, 0, 12, 5, 1, 8, 1, 2, 13, 12, 3, 10, 0, 1,
   0, 12, 7, 13, 0, 1, 11, 5, 0, 14, 0, 13, 1, 7, 13, 12, 7, 9, 12, 8]

/-- C9 (code bug in part_001's `encodeLeaf`): no `AmountOverflow` failure
exists — an amount of `2^256`, one past the 32-byte range, is encoded
without error and collides with the encoding of the in-range amount
`2^252` (Node truncates the odd-length hex string), instead of being
rejected. -/
theorem encodeLeaf_overflow_no_error :
    encodeLeaf addr1hex (2 ^ 256) = encodeLeaf addr1hex (2 ^ 252) ∧
    2 ^ 252 < 2 ^ 256 ∧
    (encodeLeaf addr1hex (2 ^ 256)).length = 52 := by decide

/-! ## The `Airdrop` contract (Solidity, concatenated in relayer.js)

State is `merkleRoot` plus the `claimed` mapping; `claim` requires the
sender's flag unset, recomputes the leaf as
`keccak256(abi.encodePacked(msg.sender, amount))`, requires the Merkle
proof valid against the stored root, sets the flag, and emits
`Claimed(msg.sender, amount)`.
-/

structure AirdropState where
  merkleRoot : Bytes
  claimed : Bytes → Bool

inductive ClaimedEvent where
  | Claimed (account : Bytes) (amount : Nat)
  deriving DecidableEq, Repr

def Airdrop.setMerkleRoot (st : AirdropState) (root : Bytes) : AirdropState :=
  { st with merkleRoot := root }

def Airdrop.claim (H : Bytes → Bytes) (st : AirdropState) (sender : Bytes)
    (amount : Nat) (proof : List Bytes) : Except String (AirdropState × ClaimedEvent) :=
  if st.claimed sender then .error "Already claimed"
  else if merkleVerify H proof st.merkleRoot (H (encodePacked sender amount)) then
    .ok ({ st with claimed := fun a => if a = sender then true else st.claimed a },
         ClaimedEvent.Claimed sender amount)
  else .error "Invalid proof"

/-- C2: the enforcement point admits at most one claim per identity — a
successful claim sets the sender's flag and emits `Claimed(sender,
amount)`; with the flag set every later claim by that identity reverts
with "Already claimed"; a claim never clears any identity's flag; and
`setMerkleRoot` leaves every flag untouched. -/
theorem claim_at_most_once (H : Bytes → Bytes) (st : AirdropState) (sender : Bytes)
    (amount : Nat) (proof : List Bytes) (st' : AirdropState) (ev : ClaimedEvent)
    (hok : Airdrop.claim H st sender amount proof = .ok (st', ev)) :
    st'.claimed sender = true ∧
    ev = ClaimedEvent.Claimed sender amount ∧
    (∀ amount2 proof2,
      Airdrop.claim H st' sender amount2 proof2 = .error "Already claimed") ∧
    (∀ a, st.claimed a = true → st'.claimed a = true) ∧
    (∀ root a, (Airdrop.setMerkleRoot st root).claimed a = st.claimed a) := by
  unfold Airdrop.claim at hok
  split at hok
  · exact absurd hok (by simp)
  · split at hok
    · rw [Except.ok.injEq, Prod.mk.injEq] at hok
      obtain ⟨rfl, rfl⟩ := hok
      refine ⟨by simp, rfl, ?_, ?_, fun root a => rfl⟩
      · intro amount2 proof2
        unfold Airdrop.claim
        rw [if_pos (by simp)]
      · intro a ha
        by_cases hx : a = sender <;> simp [hx, ha]
    · exact absurd hok (by simp)

def stW : AirdropState := ⟨hashLen (encodePacked [7] 5), fun _ => false⟩

def stW1 : AirdropState :=
  ⟨hashLen (encodePacked [7] 5), fun a => if a = [7] then true else false⟩

theorem claim_at_most_once_witness :
    stW1.claimed [7] = true ∧
    Airdrop.claim hashLen stW1 [7] 9 [] = .error "Already claimed" :=
  ⟨(claim_at_most_once hashLen stW [7] 5 [] stW1 (ClaimedEvent.Claimed [7] 5) rfl).1,
   (claim_at_most_once hashLen stW [7] 5 [] stW1 (ClaimedEvent.Claimed [7] 5) rfl).2.2.1 9 []⟩

/-! ## The relayer (`POST /relay-claim`, relayer.js)

The handler is modelled as a sequential step function. The request body
carries each field as an `Option` (absent vs. present), and JavaScript's
falsiness test `!x` holds for an absent field, the number `0`, and the
empty string. External collaborators are an oracle environment: the clock
(`Math.floor(Date.now()/1000)` and the millisecond `Date.now()` stored in
pending records), the EIP-712 recovery outcome, `contract.claimed` (which
may throw), the proof server fetch (throw / 200-without-proof / proof),
and `contract.claim` submission (throw / transaction hash). The function
also returns the ordered list of checks it performed, so ordering claims
are about an observable of the embedding. The `tx.wait()` continuations
are the separate transitions `onTxConfirmed` / `onTxFailed`.
-/

structure ClaimRequest where
  recipient : Option (List Nat)
  amount : Option Nat
  nonce : Option Nat
  deadline : Option Nat
  signature : Option (List Nat)
  deriving DecidableEq, Repr

structure PendingTx where
  recipient : List Nat
  amount : Nat
  timestamp : Nat
  deriving DecidableEq, Repr

structure RelayerState where
  usedNonces : List Nat
  pendingTxs : List (Nat × PendingTx)
  deriving DecidableEq, Repr

instance exceptDecEq {α β : Type} [DecidableEq α] [DecidableEq β] :
    DecidableEq (Except α β)
  | .error a, .error b =>
    if h : a = b then isTrue (by rw [h]) else isFalse (by simp [h])
  | .error _, .ok _ => isFalse (by simp)
  | .ok _, .error _ => isFalse (by simp)
  | .ok a, .ok b =>
    if h : a = b then isTrue (by rw [h]) else isFalse (by simp [h])

structure RelayEnv where
  now : Nat
  nowMs : Nat
  sigOk : Bool
  claimedResult : Except String Bool
  proofResult : Except String (Option (List Bytes))
  submitResult : Except String Nat
  deriving DecidableEq, Repr

inductive RelayResp where
  | missingFields
  | expired
  | nonceUsed
  | invalidSignature
  | alreadyClaimed
  | notEligible
  | serverError (details : String)
  | submitted (txHash : Nat)
  deriving DecidableEq, Repr

inductive RelayStep where
  | shape
  | deadline
  | nonce
  | signature
  | claimedCheck
  | eligibility
  | submit
  deriving DecidableEq, Repr

/-- JavaScript falsiness of an optional number field (`undefined` or `0`). -/
def falsyNat : Option Nat → Bool
  | none => true
  | some n => n == 0

/-- JavaScript falsiness of an optional string field (`undefined` or `""`). -/
def falsyStr : Option (List Nat) → Bool
  | none => true
  | some s => s.isEmpty

/-- The handler's `catch` block: `if (req.body.nonce) usedNonces.delete(req.body.nonce)`. -/
def catchCleanup (st : RelayerState) (nonce : Option Nat) : RelayerState :=
  if falsyNat nonce then st
  else { st with usedNonces := st.usedNonces.erase (nonce.getD 0) }

def fullTrace : List RelayStep :=
  [.shape, .deadline, .nonce, .signature, .claimedCheck, .eligibility, .submit]

/-- The `POST /relay-claim` handler, through the synchronous response:
field validation, deadline, nonce-replay, signature, `contract.claimed`,
proof fetch, nonce reservation, submission and pending-record insertion,
with the `catch` block's nonce cleanup on a thrown error. -/
def relayClaim (st : RelayerState) (req : ClaimRequest) (env : RelayEnv) :
    RelayResp × RelayerState × List RelayStep :=
  if falsyStr req.recipient || falsyNat req.amount || falsyNat req.nonce ||
      falsyNat req.deadline || falsyStr req.signature then
    (.missingFields, st, [.shape])
  else if env.now > req.deadline.getD 0 then
    (.expired, st, [.shape, .deadline])
  else if req.nonce.getD 0 ∈ st.usedNonces then
    (.nonceUsed, st, [.shape, .deadline, .nonce])
  else if !env.sigOk then
    (.invalidSignature, st, [.shape, .deadline, .nonce, .signature])
  else
    match env.claimedResult with
    | .error msg =>
      (.serverError msg, catchCleanup st req.nonce,
       [.shape, .deadline, .nonce, .signature, .claimedCheck])
    | .ok true =>
      (.alreadyClaimed, st, [.shape, .deadline, .nonce, .signature, .claimedCheck])
    | .ok false =>
      match env.proofResult with
      | .error _ =>
        (.serverError "Failed to fetch proof from server", catchCleanup st req.nonce,
         [.shape, .deadline, .nonce, .signature, .claimedCheck, .eligibility])
      | .ok none =>
        (.notEligible, st,
         [.shape, .deadline, .nonce, .signature, .claimedCheck, .eligibility])
      | .ok (some _) =>
        match env.submitResult with
        | .error msg =>
          (.serverError msg,
           catchCleanup { st with usedNonces := req.nonce.getD 0 :: st.usedNonces }
             req.nonce,
           fullTrace)
        | .ok txHash =>
          (.submitted txHash,
           { usedNonces := req.nonce.getD 0 :: st.usedNonces,
             pendingTxs := (txHash,
               ⟨req.recipient.getD [], req.amount.getD 0, env.nowMs⟩) :: st.pendingTxs },
           fullTrace)

/-- The continuation `tx.wait().then(...)`: on confirmation only the pending record is
removed; the nonce stays consumed. -/
def onTxConfirmed (st : RelayerState) (txHash : Nat) : RelayerState :=
  { st with pendingTxs := st.pendingTxs.filter (fun p => p.1 != txHash) }

/-- The continuation `tx.wait().catch(...)`: on asynchronous failure the pending record is
removed and the nonce is released from the used set. -/
def onTxFailed (st : RelayerState) (txHash nonce : Nat) : RelayerState :=
  { pendingTxs := st.pendingTxs.filter (fun p => p.1 != txHash),
    usedNonces := st.usedNonces.erase nonce }

/-! ## Claim theorems over the relayer -/

/-- C10: any request with a missing or falsy `recipient`, `amount`,
`nonce`, `deadline` or `signature` — in particular `amount`, `nonce` or
`deadline` equal to `0` — is rejected as missing required fields at the
shape-validation step, before the deadline, nonce and signature checks,
with no state mutated. -/
theorem relay_missing_fields (st : RelayerState) (req : ClaimRequest) (env : RelayEnv)
    (h : req.recipient = none ∨ req.recipient = some [] ∨
         req.amount = none ∨ req.amount = some 0 ∨
         req.nonce = none ∨ req.nonce = some 0 ∨
         req.deadline = none ∨ req.deadline = some 0 ∨
         req.signature = none ∨ req.signature = some []) :
    relayClaim st req env = (.missingFields, st, [.shape]) := by
  unfold relayClaim
  rcases h with h | h | h | h | h | h | h | h | h | h <;>
    rw [if_pos (by simp [h, falsyNat, falsyStr])]

def stR : RelayerState := ⟨[], []⟩

def envOk : RelayEnv := ⟨50, 50000, true, .ok false, .ok (some [[9]]), .ok 1⟩

theorem relay_missing_fields_witness :
    relayClaim stR ⟨some [1], some 0, some 7, some 100, some [1]⟩ envOk =
      (.missingFields, stR, [.shape]) :=
  relay_missing_fields stR ⟨some [1], some 0, some 7, some 100, some [1]⟩ envOk
    (Or.inr (Or.inr (Or.inr (Or.inl rfl))))

/-- The negation of the handler's field-validation guard. -/
def shapeOk (req : ClaimRequest) : Bool :=
  !(falsyStr req.recipient || falsyNat req.amount || falsyNat req.nonce ||
    falsyNat req.deadline || falsyStr req.signature)

/-- C5: a well-formed intent whose deadline lies strictly in the past is
rejected as expired with the state returned untouched — the nonce is not
added to the used set and no pending record is created. -/
theorem relay_expired_no_state_change (st : RelayerState) (req : ClaimRequest)
    (env : RelayEnv) (hshape : shapeOk req = true)
    (hpast : req.deadline.getD 0 < env.now) :
    relayClaim st req env = (.expired, st, [.shape, .deadline]) := by
  have hg : (falsyStr req.recipient || falsyNat req.amount || falsyNat req.nonce ||
      falsyNat req.deadline || falsyStr req.signature) = false := by
    unfold shapeOk at hshape
    simpa using hshape
  unfold relayClaim
  rw [hg]
  rw [if_neg (by simp), if_pos hpast]

def reqExp : ClaimRequest := ⟨some [1], some 5, some 7, some 40, some [1]⟩

theorem relay_expired_no_state_change_witness :
    relayClaim stR reqExp envOk = (.expired, stR, [.shape, .deadline]) :=
  relay_expired_no_state_change stR reqExp envOk (by decide) (by decide)

def reqW : ClaimRequest := ⟨some [1], some 5, some 7, some 100, some [1]⟩

def envBoth : RelayEnv := ⟨50, 50000, true, .ok true, .error "no proof", .ok 1⟩

/-- C4 counterexample: on a request whose sender is simultaneously not
eligible (the proof fetch would fail) and already claimed, the handler
answers "Already claimed" after a check sequence that never consulted the
proof source — the eligibility check does not precede the already-claimed
check as the claim states. -/
theorem relay_order_counterexample :
    (relayClaim stR reqW envBoth).1 = .alreadyClaimed ∧
    (relayClaim stR reqW envBoth).2.2 =
      [.shape, .deadline, .nonce, .signature, .claimedCheck] ∧
    ¬(RelayStep.claimedCheck ∈ (relayClaim stR reqW envBoth).2.2 →
        RelayStep.eligibility ∈ (relayClaim stR reqW envBoth).2.2) := by
  decide

/-- C4 (amended): the relay pipeline checks run in the order shape,
deadline, nonce, signature, already-claimed, eligibility, submit — the
already-claimed check BEFORE eligibility — every run performs a prefix of
that order, and each rejection aborts at its own step without performing
the later ones (the full order is reached only when submission itself is
attempted). -/
theorem relay_check_order (st : RelayerState) (req : ClaimRequest) (env : RelayEnv)
    (resp : RelayResp) (st' : RelayerState) (tr : List RelayStep)
    (hrun : relayClaim st req env = (resp, st', tr)) :
    (∃ k, tr = fullTrace.take k) ∧
    (resp = .missingFields → tr = fullTrace.take 1) ∧
    (resp = .expired → tr = fullTrace.take 2) ∧
    (resp = .nonceUsed → tr = fullTrace.take 3) ∧
    (resp = .invalidSignature → tr = fullTrace.take 4) ∧
    (resp = .alreadyClaimed → tr = fullTrace.take 5) ∧
    (resp = .notEligible → tr = fullTrace.take 6) ∧
    (∀ h, resp = .submitted h → tr = fullTrace) := by
  unfold relayClaim at hrun
  repeat' split at hrun
  all_goals rw [Prod.mk.injEq, Prod.mk.injEq] at hrun
  all_goals obtain ⟨rfl, rfl, rfl⟩ := hrun
  all_goals refine ⟨?_, ?_, ?_, ?_, ?_, ?_, ?_, ?_⟩
  all_goals first
    | exact ⟨1, rfl⟩
    | exact ⟨2, rfl⟩
    | exact ⟨3, rfl⟩
    | exact ⟨4, rfl⟩
    | exact ⟨5, rfl⟩
    | exact ⟨6, rfl⟩
    | exact ⟨7, rfl⟩
    | (intro hc; rfl)
    | (intro hc; simp at hc)
    | (intro hh hc; rfl)
    | (intro hh hc; simp at hc)

def stSub : RelayerState := ⟨[7], [(1, ⟨[1], 5, 50000⟩)]⟩

theorem relay_check_order_witness :
    ([RelayStep.shape, RelayStep.deadline] : List RelayStep) = fullTrace.take 2 ∧
    ([RelayStep.shape, RelayStep.deadline, RelayStep.nonce, RelayStep.signature,
      RelayStep.claimedCheck] : List RelayStep) = fullTrace.take 5 ∧
    fullTrace = fullTrace :=
  ⟨(relay_check_order stR reqExp envOk .expired stR
      [RelayStep.shape, RelayStep.deadline] rfl).2.2.1 rfl,
   (relay_check_order stR reqW envBoth .alreadyClaimed stR
      [RelayStep.shape, RelayStep.deadline, RelayStep.nonce, RelayStep.signature,
       RelayStep.claimedCheck] rfl).2.2.2.2.2.1 rfl,
   (relay_check_order stR reqW envOk (.submitted 1) stSub fullTrace rfl).2.2.2.2.2.2.2 1 rfl⟩

theorem catchCleanup_eq (st : RelayerState) (nonce : Option Nat)
    (h : nonce.getD 0 ∉ st.usedNonces) : catchCleanup st nonce = st := by
  unfold catchCleanup
  split
  · rfl
  · rw [List.erase_of_not_mem h]

/-- C3: the nonce lifecycle of the relay — (i) on a synchronous failure
after the checks (a thrown error, answered 500) the returned state is
exactly the original one, so a reserved nonce is released; (ii) on an
asynchronous transaction failure after a successful submission,
`onTxFailed` restores the original used-nonce set and the identical
resubmission with the same nonce is accepted again (not replay-rejected);
(iii) `onTxConfirmed` leaves the used set untouched, so the nonce — in the
set right after submission — is consumed permanently only by
confirmation. -/
theorem nonce_released_on_failure (st : RelayerState) (req : ClaimRequest)
    (env : RelayEnv) (resp : RelayResp) (st' : RelayerState) (tr : List RelayStep)
    (hrun : relayClaim st req env = (resp, st', tr)) :
    (∀ msg, resp = .serverError msg → st' = st) ∧
    (∀ h, resp = .submitted h →
      req.nonce.getD 0 ∈ st'.usedNonces ∧
      (onTxFailed st' h (req.nonce.getD 0)).usedNonces = st.usedNonces ∧
      (relayClaim (onTxFailed st' h (req.nonce.getD 0)) req env).1 = .submitted h ∧
      (onTxConfirmed st' h).usedNonces = st'.usedNonces) := by
  unfold relayClaim at hrun
  split at hrun
  next hshape =>
    rw [Prod.mk.injEq, Prod.mk.injEq] at hrun
    obtain ⟨rfl, rfl, rfl⟩ := hrun
    exact ⟨fun msg hm => by simp at hm, fun h hh => by simp at hh⟩
  next hshape =>
    split at hrun
    next hdl =>
      rw [Prod.mk.injEq, Prod.mk.injEq] at hrun
      obtain ⟨rfl, rfl, rfl⟩ := hrun
      exact ⟨fun msg hm => by simp at hm, fun h hh => by simp at hh⟩
    next hdl =>
      split at hrun
      next hn =>
        rw [Prod.mk.injEq, Prod.mk.injEq] at hrun
        obtain ⟨rfl, rfl, rfl⟩ := hrun
        exact ⟨fun msg hm => by simp at hm, fun h hh => by simp at hh⟩
      next hn =>
        split at hrun
        next hsig =>
          rw [Prod.mk.injEq, Prod.mk.injEq] at hrun
          obtain ⟨rfl, rfl, rfl⟩ := hrun
          exact ⟨fun msg hm => by simp at hm, fun h hh => by simp at hh⟩
        next hsig =>
          split at hrun
          next msg1 hclaimed =>
            rw [Prod.mk.injEq, Prod.mk.injEq] at hrun
            obtain ⟨rfl, rfl, rfl⟩ := hrun
            exact ⟨fun msg hm => catchCleanup_eq st req.nonce hn,
                   fun h hh => by simp at hh⟩
          next hclaimed =>
            rw [Prod.mk.injEq, Prod.mk.injEq] at hrun
            obtain ⟨rfl, rfl, rfl⟩ := hrun
            exact ⟨fun msg hm => by simp at hm, fun h hh => by simp at hh⟩
          next hclaimed =>
            split at hrun
            next hproof =>
              rw [Prod.mk.injEq, Prod.mk.injEq] at hrun
              obtain ⟨rfl, rfl, rfl⟩ := hrun
              exact ⟨fun msg hm => catchCleanup_eq st req.nonce hn,
                     fun h hh => by simp at hh⟩
            next hproof =>
              rw [Prod.mk.injEq, Prod.mk.injEq] at hrun
              obtain ⟨rfl, rfl, rfl⟩ := hrun
              exact ⟨fun msg hm => by simp at hm, fun h hh => by simp at hh⟩
            next p hproof =>
              split at hrun
              next msg2 hsub =>
                rw [Prod.mk.injEq, Prod.mk.injEq] at hrun
                obtain ⟨rfl, rfl, rfl⟩ := hrun
                refine ⟨fun msg hm => ?_, fun h hh => by simp at hh⟩
                have hfn : falsyNat req.nonce = false := by
                  simp only [Bool.or_eq_true, not_or, Bool.not_eq_true] at hshape
                  exact hshape.1.1.2
                unfold catchCleanup
                rw [if_neg (by simp [hfn])]
                show RelayerState.mk
                    ((req.nonce.getD 0 :: st.usedNonces).erase (req.nonce.getD 0))
                    st.pendingTxs = st
                rw [List.erase_cons_head]
              next txh hsub =>
                rw [Prod.mk.injEq, Prod.mk.injEq] at hrun
                obtain ⟨rfl, rfl, rfl⟩ := hrun
                refine ⟨fun msg hm => by simp at hm, fun h hh => ?_⟩
                rw [RelayResp.submitted.injEq] at hh
                subst hh
                refine ⟨List.mem_cons_self _ _, ?_, ?_, rfl⟩
                · show (req.nonce.getD 0 :: st.usedNonces).erase (req.nonce.getD 0) =
                    st.usedNonces
                  exact List.erase_cons_head _ _
                · unfold onTxFailed relayClaim
                  simp only [List.erase_cons_head]
                  rw [if_neg hshape, if_neg hdl, if_neg hn, if_neg hsig,
                    hclaimed, hproof, hsub]

theorem nonce_released_on_failure_witness :
    (7 : Nat) ∈ stSub.usedNonces ∧
    (onTxFailed stSub 1 7).usedNonces = stR.usedNonces ∧
    (relayClaim (onTxFailed stSub 1 7) reqW envOk).1 = .submitted 1 ∧
    (onTxConfirmed stSub 1).usedNonces = stSub.usedNonces :=
  (nonce_released_on_failure stR reqW envOk (.submitted 1) stSub fullTrace rfl).2 1 rfl
